import Mathlib

/-!
# Verification of the GLES3ComputeLib circular queue (`src/src/queue.c`)

Shallow embedding of the dynamically resizable circular queue of pointers
implemented in `queue.c` / declared in `queue.h`, together with proofs of the
specified properties (FIFO order, capacity invariants, growth and shrink
policy, error behaviour).

Modelling conventions:
* A C `void*` element is modelled by `Ptr V := Option V`; `none` models the
  `NULL` pointer.  The functions `queue_pop` and `queue_get` return `none`
  both for their failure case (`Empty` / `OutOfRange`, where the C code
  returns `NULL`) and for a stored `NULL` element, exactly as in the C code.
* The C `int` fields `start_pos`, `size`, `max_size`, `min_size` are
  modelled by `Nat`: they are never negative in any state the code
  constructs, and the claims quantify over nonnegative values only.
* The C `float` fields `factor_expansion` and `factor_reduction` are
  modelled by `ℚ`, and the two floating-point expressions of the code
  (`(int)((float)size * factor_expansion)` in `queue_push` and
  `(float)size / (float)max_size < factor_reduction` in `queue_pop`) are
  modelled by exact rational arithmetic.  For the policy constants the
  claims use (`0.0f`, `1.0f`, `2.0f`) and the small sizes involved, the
  float computations are exact, so the rational model agrees with the code.
  The products/quotients are written via `mkRat` (with lemmas relating them
  to `*` and `/` on `ℚ`) because Batteries marks `Rat.mul`/`Rat.div`
  `@[irreducible]`, which would block kernel evaluation on concrete inputs.
* `malloc` success/failure is an environment choice: operations that
  allocate take an `alloc_ok : Bool` oracle for the outcome of the `malloc`
  call inside `queue_resize`.  `queue_create` does not take one because the
  C code never checks its `malloc` results (see the `C3` discussion).
  Freshly allocated (uninitialized) slots are modelled as `none`; the code
  never reads a slot before writing it.
-/

namespace GLES3ComputeLib

/-- A C pointer value: `none` models `NULL`. -/
abbrev Ptr (V : Type) : Type := Option V

/-- `queue_t` from `queue.h`: circular queue of pointers. -/
structure Queue (V : Type) where
  /-- Storage index of the first element in the queue. -/
  start_pos : Nat
  /-- Current number of elements in the queue. -/
  size : Nat
  /-- Virtual maximum capacity of the queue. -/
  max_size : Nat
  /-- Internal storage of queue elements; its length models the allocated
  capacity. -/
  content : List (Ptr V)
  /-- Minimum size of the queue for which shrink-resizing may trigger. -/
  min_size : Nat
  /-- Expansion factor of the queue size (`<= 1.0` disables expansion). -/
  factor_expansion : ℚ
  /-- Reduction factor of the queue size (`0.0` disables reduction). -/
  factor_reduction : ℚ
  deriving DecidableEq

/-- `QUEUE_DEFAULT_MIN_SIZE` from `queue.h`. -/
def QUEUE_DEFAULT_MIN_SIZE : Nat := 16

/-- `QUEUE_DEFAULT_FACTOR_EXPANSION` (`2.0f`) from `queue.h`. -/
def QUEUE_DEFAULT_FACTOR_EXPANSION : ℚ := 2

/-- `QUEUE_DEFAULT_FACTOR_REDUCTION` (`0.0f`) from `queue.h`. -/
def QUEUE_DEFAULT_FACTOR_REDUCTION : ℚ := 0

/-- The exact rational value of the C expression
`(float)n * f` (`n` a nonnegative `int`, `f` a `float`), written via `mkRat`
so that the kernel can evaluate it on concrete inputs. -/
def cFloatMulNat (n : Nat) (f : ℚ) : ℚ := mkRat ((n : Int) * f.num) f.den

/-- The exact rational value of the C expression `(float)a / (float)b`
(both nonnegative `int`s).  For `b = 0` the C code would produce `NaN` (or
`±inf`), which compares `false` under `<`; `mkRat a 0 = 0` gives the same
comparison results against a nonnegative threshold. -/
def cFloatDivNat (a b : Nat) : ℚ := mkRat (a : Int) b

/-- The C cast `(int)x` of a float value: truncation toward zero. -/
def cIntOfFloat (x : ℚ) : Int :=
  if 0 ≤ x.num then x.num / (x.den : Int) else -((-x.num) / (x.den : Int))

/-- `queue_create` from `queue.c`.  The C code calls `malloc` twice without
checking the result and unconditionally initializes the fields through the
returned pointer; this embedding models the path on which both allocations
succeed.  The `capacity` freshly `malloc`ed slots are uninitialized; they
are modelled as `none` and are never read before being written. -/
def queue_create (V : Type) (capacity : Nat) : Queue V :=
  { start_pos := 0
    size := 0
    max_size := capacity
    content := List.replicate capacity (none : Ptr V)
    min_size := QUEUE_DEFAULT_MIN_SIZE
    factor_expansion := QUEUE_DEFAULT_FACTOR_EXPANSION
    factor_reduction := QUEUE_DEFAULT_FACTOR_REDUCTION }

variable {V : Type}

/-- The two `memcpy` calls of `queue_resize`: the live circular window of
`queue->content`, linearized to start at index 0. -/
def resize_copy (q : Queue V) : List (Ptr V) :=
  let elems_from_start := q.max_size - q.start_pos
  if elems_from_start ≥ q.size then
    (q.content.drop q.start_pos).take q.size
  else
    (q.content.drop q.start_pos).take elems_from_start ++
      q.content.take (q.size - elems_from_start)

/-- `queue_resize` from `queue.c`.  `alloc_ok` is the outcome of the
`malloc` of the new buffer; on failure the function returns `false`
(modelled as `none`) and the queue is untouched.  The new buffer has
`new_capacity` slots: the `size` live elements are copied to its front and
the remaining slots are uninitialized (modelled as `none`). -/
def queue_resize (q : Queue V) (new_capacity : Nat) (alloc_ok : Bool) :
    Option (Queue V) :=
  if alloc_ok then
    some { q with
      content := (resize_copy q ++ List.replicate new_capacity none).take new_capacity
      max_size := new_capacity
      start_pos := 0 }
  else
    none

/-- The unconditional insertion step at the end of `queue_push`:
`queue->content[(queue->start_pos + queue->size) % queue->max_size] = data;
queue->size++;`. -/
def queue_insert_back (q : Queue V) (data : Ptr V) : Queue V :=
  { q with
    content := q.content.set ((q.start_pos + q.size) % q.max_size) data
    size := q.size + 1 }

/-- `queue_push` from `queue.c`.  Returns the C `bool` result together with
the queue state after the call. -/
def queue_push (q : Queue V) (data : Ptr V) (alloc_ok : Bool) :
    Bool × Queue V :=
  if q.size = q.max_size then
    let new_capacity : Int := cIntOfFloat (cFloatMulNat q.size q.factor_expansion)
    if new_capacity ≤ (q.max_size : Int) then
      (false, q)  -- no expansion possible (static queue size)
    else
      match queue_resize q new_capacity.toNat alloc_ok with
      | none => (false, q)  -- could not expand the queue
      | some q2 => (true, queue_insert_back q2 data)
  else
    (true, queue_insert_back q data)

/-- `queue_pop` from `queue.c`.  Returns the C `void*` result (`none` both
for an empty queue and for a stored `NULL`) together with the queue state
after the call.  The C code ignores the result of the shrinking
`queue_resize`; on allocation failure the queue simply keeps its previous
capacity. -/
def queue_pop (q : Queue V) (alloc_ok : Bool) : Ptr V × Queue V :=
  if 0 < q.size then
    let elem := q.content.getD q.start_pos none
    let q1 : Queue V :=
      { q with
        start_pos := (q.start_pos + 1) % q.max_size
        size := q.size - 1 }
    let q2 : Queue V :=
      if q1.min_size ≤ q1.size ∧
          cFloatDivNat q1.size q1.max_size < q1.factor_reduction then
        (queue_resize q1 q1.size alloc_ok).getD q1
      else
        q1
    (elem, q2)
  else
    (none, q)

/-- `queue_get` from `queue.c`.  The index is a C `int`, so it may be
negative; the C code returns `NULL` (here `none`) outside `[0, size)`. -/
def queue_get (q : Queue V) (i : Int) : Ptr V :=
  if 0 ≤ i ∧ i < (q.size : Int) then
    q.content.getD ((q.start_pos + i.toNat) % q.max_size) none
  else
    none

/-! ## Derived observers used to state the specification -/

/-- The logical (FIFO) contents of the queue, oldest first: the live
circular window `start_pos, start_pos+1, …, start_pos+size-1` (mod
`max_size`) of the storage. -/
def toList (q : Queue V) : List (Ptr V) :=
  (List.range q.size).map fun i => q.content.getD ((q.start_pos + i) % q.max_size) none

/-- Structural well-formedness of a queue state: the storage length is the
capacity, the size fits the capacity, and the start index is in range. -/
def WF (q : Queue V) : Prop :=
  q.content.length = q.max_size ∧ q.size ≤ q.max_size ∧ q.start_pos < q.max_size

instance (q : Queue V) : Decidable (WF q) := by unfold WF; infer_instance

/-- Push a whole list of elements left to right (all allocations succeed). -/
def pushAll (q : Queue V) (es : List (Ptr V)) : Queue V :=
  es.foldl (fun q e => (queue_push q e true).2) q

/-- The list of C `bool` results of pushing `es` left to right. -/
def pushAllResults (q : Queue V) : List (Ptr V) → List Bool
  | [] => []
  | e :: es => (queue_push q e true).1 :: pushAllResults (queue_push q e true).2 es

/-- Pop `n` times (all allocations succeed), collecting the returned
pointers in order. -/
def popAll (q : Queue V) : Nat → List (Ptr V) × Queue V
  | 0 => ([], q)
  | n + 1 =>
    let r := queue_pop q true
    let rest := popAll r.2 n
    (r.1 :: rest.1, rest.2)

/-- Number of pushes in the sequence `es` that trigger a resize (a resize
during `queue_push` always changes `max_size`, so this counts exactly the
`queue_resize` calls made by the pushes). -/
def pushAllResizes (q : Queue V) : List (Ptr V) → Nat
  | [] => 0
  | e :: es =>
    (if (queue_push q e true).2.max_size ≠ q.max_size then 1 else 0) +
      pushAllResizes (queue_push q e true).2 es

/-- States reachable from `queue_create capacity` by any sequence of pushes
and pops, with any allocation outcomes. -/
inductive Reachable (V : Type) (capacity : Nat) : Queue V → Prop
  | create : Reachable V capacity (queue_create V capacity)
  | push (q : Queue V) (d : Ptr V) (ok : Bool) :
      Reachable V capacity q → Reachable V capacity (queue_push q d ok).2
  | pop (q : Queue V) (ok : Bool) :
      Reachable V capacity q → Reachable V capacity (queue_pop q ok).2

/-! ## Helper lemmas: the rational model of the float expressions -/

theorem cFloatMulNat_eq (n : Nat) (f : ℚ) : cFloatMulNat n f = (n : ℚ) * f := by
  unfold cFloatMulNat
  rw [Rat.mkRat_eq_divInt, Rat.divInt_eq_div]
  push_cast
  rw [mul_div_assoc, Rat.num_div_den]

theorem cFloatDivNat_eq (a b : Nat) : cFloatDivNat a b = (a : ℚ) / (b : ℚ) := by
  unfold cFloatDivNat
  rw [Rat.mkRat_eq_divInt, Rat.divInt_eq_div]
  push_cast
  rfl

theorem cFloatDivNat_nonneg (a b : Nat) : 0 ≤ cFloatDivNat a b := by
  rw [cFloatDivNat_eq]; positivity

theorem cIntOfFloat_eq (x : ℚ) : cIntOfFloat x = if 0 ≤ x then ⌊x⌋ else ⌈x⌉ := by
  unfold cIntOfFloat
  by_cases h : 0 ≤ x
  · rw [if_pos (Rat.num_nonneg.mpr h), if_pos h, Rat.floor_def]
  · rw [if_neg (fun hn => h (Rat.num_nonneg.mp hn)), if_neg h]
    have h1 : ⌈x⌉ = -⌊-x⌋ := by rw [Int.floor_neg]; ring
    rw [h1, Rat.floor_def, Rat.num_neg_eq_neg_num, Rat.den_neg_eq_den]

theorem cIntOfFloat_natCast (n : Nat) : cIntOfFloat (n : ℚ) = (n : Int) := by
  rw [cIntOfFloat_eq, if_pos (by positivity), Int.floor_natCast]

theorem cIntOfFloat_le_natCast {x : ℚ} {n : Nat} (h : x ≤ (n : ℚ)) :
    cIntOfFloat x ≤ (n : Int) := by
  rw [cIntOfFloat_eq]
  split
  · calc ⌊x⌋ ≤ ⌊(n : ℚ)⌋ := Int.floor_le_floor h
      _ = (n : Int) := Int.floor_natCast n
  · next hneg =>
      have hx0 : x ≤ 0 := le_of_lt (lt_of_not_ge hneg)
      have h0 : ⌈x⌉ ≤ 0 := by
        have hc : x ≤ ((0 : Int) : ℚ) := by exact_mod_cast hx0
        simpa using Int.ceil_le.mpr hc
      exact le_trans h0 (Int.natCast_nonneg n)

theorem cIntOfFloat_two_mul (n : Nat) :
    cIntOfFloat (cFloatMulNat n 2) = 2 * (n : Int) := by
  rw [cFloatMulNat_eq]
  have h : ((n : ℚ)) * 2 = ((2 * n : Nat) : ℚ) := by push_cast; ring
  rw [h, cIntOfFloat_natCast]
  push_cast
  ring

/-! ## Helper lemmas: the logical contents of a queue -/

theorem toList_length (q : Queue V) : (toList q).length = q.size := by
  simp [toList]

theorem toList_getD (q : Queue V) {i : Nat} (h : i < q.size) :
    (toList q).getD i none = q.content.getD ((q.start_pos + i) % q.max_size) none := by
  unfold toList
  rw [List.getD_eq_getElem _ _ (by simpa using h)]
  simp

theorem toList_eq_nil (q : Queue V) (h : q.size = 0) : toList q = [] := by
  simp [toList, h]

/-- The linearizing copy performed by the two branches of the resize
(`memcpy` calls) is exactly the logical contents of the queue. -/
theorem resize_copy_eq_toList (q : Queue V) (hq : WF q) : resize_copy q = toList q := by
  obtain ⟨hlen, hsize, hstart⟩ := hq
  have hmax : 0 < q.max_size := by omega
  unfold resize_copy
  by_cases hcase : q.max_size - q.start_pos ≥ q.size
  · rw [if_pos hcase]
    apply List.ext_getElem
    · simp [toList_length, hlen]
      omega
    · intro i h1 h2
      have hi : i < q.size := by simpa [toList_length] using h2
      rw [List.getElem_take, List.getElem_drop]
      unfold toList
      rw [List.getElem_map, List.getElem_range]
      rw [Nat.mod_eq_of_lt (by omega)]
      rw [List.getD_eq_getElem _ _ (by omega)]
  · rw [if_neg hcase]
    have hwrap : q.max_size - q.start_pos < q.size := by omega
    apply List.ext_getElem
    · simp [toList_length, hlen]
      omega
    · intro i h1 h2
      have hi : i < q.size := by simpa [toList_length] using h2
      unfold toList
      rw [List.getElem_map, List.getElem_range]
      by_cases hsplit : i < q.max_size - q.start_pos
      · rw [List.getElem_append_left (by simp [hlen]; omega)]
        rw [List.getElem_take, List.getElem_drop]
        rw [Nat.mod_eq_of_lt (by omega)]
        rw [List.getD_eq_getElem _ _ (by omega)]
      · rw [List.getElem_append_right (by simp [hlen]; omega)]
        rw [List.getElem_take]
        have hmod : (q.start_pos + i) % q.max_size
            = i - (q.max_size - q.start_pos) := by
          have h1 : q.max_size ≤ q.start_pos + i := by omega
          rw [Nat.mod_eq_sub_mod h1, Nat.mod_eq_of_lt (by omega)]
          omega
        rw [hmod, List.getD_eq_getElem _ _ (by omega)]
        congr 1
        simp [hlen]

/-! ## Helper lemmas: queue_resize -/

theorem queue_resize_false (q : Queue V) (n : Nat) : queue_resize q n false = none := rfl

/-- A successful resize to a capacity at least the current size preserves
the logical contents and well-formedness, moves the start to 0, and keeps
all the policy fields. -/
theorem queue_resize_some (q : Queue V) (n : Nat) (hq : WF q) (hn : q.size ≤ n)
    (hn0 : 0 < n) :
    ∃ r, queue_resize q n true = some r ∧
      toList r = toList q ∧ WF r ∧
      r.size = q.size ∧ r.max_size = n ∧ r.start_pos = 0 ∧
      r.min_size = q.min_size ∧ r.factor_expansion = q.factor_expansion ∧
      r.factor_reduction = q.factor_reduction := by
  refine ⟨_, rfl, ?_, ?_, rfl, rfl, rfl, rfl, rfl, rfl⟩
  · -- toList of the resized queue
    have hcopy := resize_copy_eq_toList q hq
    have hcopylen : (resize_copy q).length = q.size := by
      rw [hcopy, toList_length]
    apply List.ext_getElem
    · simp [toList_length]
    · intro i h1 h2
      have hi : i < q.size := by simpa [toList_length] using h1
      unfold toList
      simp only [List.getElem_map, List.getElem_range]
      rw [Nat.mod_eq_of_lt (show 0 + i < n by omega), Nat.zero_add]
      rw [List.getD_eq_getElem _ _ (by
        simp only [List.length_take, List.length_append, List.length_replicate]
        omega)]
      rw [List.getElem_take, List.getElem_append_left (by omega)]
      simp only [hcopy]
      rw [← toList_getD q hi, List.getD_eq_getElem _ _ (by rw [toList_length]; omega)]
  · -- well-formedness
    refine ⟨?_, by simpa using hn, by simpa using hn0⟩
    simp only [List.length_take, List.length_append, List.length_replicate]
    omega

/-! ## Helper lemmas: queue_insert_back and queue_push -/

/-- Distinctness of the insertion slot from the live slots: the key
wraparound-index fact. -/
theorem live_slot_ne_insert_slot {start i size max : Nat} (hi : i < size)
    (hsz : size < max) : (start + i) % max ≠ (start + size) % max := by
  intro h
  have hmeq : i % max = size % max := Nat.ModEq.add_left_cancel' start h
  rw [Nat.mod_eq_of_lt (by omega), Nat.mod_eq_of_lt (by omega)] at hmeq
  omega

theorem queue_insert_back_toList (q : Queue V) (d : Ptr V) (hq : WF q)
    (h : q.size < q.max_size) :
    toList (queue_insert_back q d) = toList q ++ [d] ∧
      WF (queue_insert_back q d) := by
  obtain ⟨hlen, hsize, hstart⟩ := hq
  have hmax : 0 < q.max_size := by omega
  have hjlt : (q.start_pos + q.size) % q.max_size < q.max_size := Nat.mod_lt _ hmax
  constructor
  · unfold toList queue_insert_back
    simp only
    rw [List.range_succ, List.map_append, List.map_singleton]
    congr 1
    · apply List.ext_getElem
      · simp
      · intro i h1 h2
        have hi : i < q.size := by simpa using h2
        simp only [List.getElem_map, List.getElem_range]
        rw [List.getD_eq_getElem _ _ (by rw [List.length_set, hlen]; exact Nat.mod_lt _ hmax),
          List.getD_eq_getElem _ _ (by rw [hlen]; exact Nat.mod_lt _ hmax)]
        exact List.getElem_set_ne (Ne.symm (live_slot_ne_insert_slot hi h)) _
    · rw [List.getD_eq_getElem _ _ (by rw [List.length_set, hlen]; exact hjlt)]
      simp [List.getElem_set_self]
  · exact ⟨by simp [queue_insert_back, hlen], by simpa [queue_insert_back] using h,
      by simpa [queue_insert_back] using hstart⟩

theorem queue_push_of_lt (q : Queue V) (d : Ptr V) (ok : Bool)
    (h : q.size < q.max_size) :
    queue_push q d ok = (true, queue_insert_back q d) := by
  unfold queue_push
  rw [if_neg (Nat.ne_of_lt h)]

theorem queue_push_of_no_growth (q : Queue V) (d : Ptr V) (ok : Bool)
    (hfull : q.size = q.max_size)
    (hnc : cIntOfFloat (cFloatMulNat q.size q.factor_expansion) ≤ (q.max_size : Int)) :
    queue_push q d ok = (false, q) := by
  unfold queue_push
  rw [if_pos hfull, if_pos hnc]

theorem queue_push_alloc_fail (q : Queue V) (d : Ptr V)
    (hfull : q.size = q.max_size) :
    queue_push q d false = (false, q) := by
  unfold queue_push
  rw [if_pos hfull]
  by_cases hnc : cIntOfFloat (cFloatMulNat q.size q.factor_expansion) ≤ (q.max_size : Int)
  · rw [if_pos hnc]
  · rw [if_neg hnc, queue_resize_false]

/-- The effect of a successful push on the logical contents: it appends the
element, whether or not a growth resize was needed. -/
theorem queue_push_toList (q : Queue V) (d : Ptr V) (hq : WF q)
    (hgrow : q.size = q.max_size →
      (q.max_size : Int) < cIntOfFloat (cFloatMulNat q.size q.factor_expansion)) :
    (queue_push q d true).1 = true ∧
      toList (queue_push q d true).2 = toList q ++ [d] ∧
      WF (queue_push q d true).2 ∧
      (queue_push q d true).2.size = q.size + 1 ∧
      q.max_size ≤ (queue_push q d true).2.max_size ∧
      (queue_push q d true).2.min_size = q.min_size ∧
      (queue_push q d true).2.factor_expansion = q.factor_expansion ∧
      (queue_push q d true).2.factor_reduction = q.factor_reduction := by
  by_cases hfull : q.size = q.max_size
  · have hnc := hgrow hfull
    have hn0 : 0 < (cIntOfFloat (cFloatMulNat q.size q.factor_expansion)).toNat := by
      omega
    have hnsz : q.size ≤ (cIntOfFloat (cFloatMulNat q.size q.factor_expansion)).toNat := by
      omega
    obtain ⟨r, hr, hrlist, hrwf, hrsize, hrmax, hrstart, hrmin, hrfe, hrfr⟩ :=
      queue_resize_some q _ hq hnsz hn0
    have hpush : queue_push q d true = (true, queue_insert_back r d) := by
      unfold queue_push
      rw [if_pos hfull, if_neg (not_le.mpr hnc), hr]
    have hrlt : r.size < r.max_size := by omega
    obtain ⟨hins, hinswf⟩ := queue_insert_back_toList r d hrwf hrlt
    rw [hpush]
    refine ⟨rfl, ?_, hinswf, ?_, ?_, ?_, ?_, ?_⟩
    · rw [hins, hrlist]
    · simp [queue_insert_back, hrsize]
    · simp [queue_insert_back]; omega
    · simp [queue_insert_back, hrmin]
    · simp [queue_insert_back, hrfe]
    · simp [queue_insert_back, hrfr]
  · have hlt : q.size < q.max_size := lt_of_le_of_ne hq.2.1 hfull
    rw [queue_push_of_lt q d true hlt]
    obtain ⟨hins, hinswf⟩ := queue_insert_back_toList q d hq hlt
    exact ⟨rfl, hins, hinswf, rfl, le_refl _, rfl, rfl, rfl⟩

/-! ## Helper lemmas: queue_pop -/

theorem queue_pop_of_zero (q : Queue V) (ok : Bool) (h : q.size = 0) :
    queue_pop q ok = (none, q) := by
  unfold queue_pop
  rw [if_neg (by omega)]

/-- The state after the removal step of a pop (before the shrink check). -/
def popped (q : Queue V) : Queue V :=
  { q with start_pos := (q.start_pos + 1) % q.max_size, size := q.size - 1 }

/-- The shrink condition checked by queue_pop after the removal step. -/
def shrinkCond (q : Queue V) : Prop :=
  q.min_size ≤ q.size ∧ cFloatDivNat q.size q.max_size < q.factor_reduction

instance (q : Queue V) : Decidable (shrinkCond q) := by unfold shrinkCond; infer_instance

theorem queue_pop_of_pos (q : Queue V) (ok : Bool) (h : 0 < q.size) :
    queue_pop q ok =
      (q.content.getD q.start_pos none,
        if shrinkCond (popped q) then
          (queue_resize (popped q) (popped q).size ok).getD (popped q)
        else popped q) := by
  unfold queue_pop shrinkCond popped
  rw [if_pos h]

theorem queue_pop_no_shrink (q : Queue V) (ok : Bool) (h : 0 < q.size)
    (hns : ¬ shrinkCond (popped q)) :
    queue_pop q ok = (q.content.getD q.start_pos none, popped q) := by
  rw [queue_pop_of_pos q ok h, if_neg hns]

/-- With the default reduction factor 0, the shrink condition never holds
(the quotient is nonnegative). -/
theorem shrinkCond_of_fr_zero (q : Queue V) (hfr : q.factor_reduction = 0) :
    ¬ shrinkCond q := by
  intro hcond
  have := hcond.2
  rw [hfr] at this
  exact absurd this (not_lt.mpr (cFloatDivNat_nonneg _ _))

/-- The logical effect of a non-shrinking pop on a well-formed nonempty
queue: it returns the oldest element and keeps the rest in order. -/
theorem queue_pop_toList (q : Queue V) (ok : Bool) (hq : WF q) (h : 0 < q.size)
    (hns : ¬ shrinkCond (popped q)) :
    (queue_pop q ok).1 = (toList q).getD 0 none ∧
      toList (queue_pop q ok).2 = (toList q).tail ∧
      WF (queue_pop q ok).2 ∧
      (queue_pop q ok).2.size = q.size - 1 ∧
      (queue_pop q ok).2.max_size = q.max_size ∧
      (queue_pop q ok).2.min_size = q.min_size ∧
      (queue_pop q ok).2.factor_expansion = q.factor_expansion ∧
      (queue_pop q ok).2.factor_reduction = q.factor_reduction := by
  obtain ⟨hlen, hsize, hstart⟩ := hq
  have hmax : 0 < q.max_size := by omega
  rw [queue_pop_no_shrink q ok h hns]
  refine ⟨?_, ?_, ⟨hlen, by simp [popped]; omega, by simp [popped]; exact Nat.mod_lt _ hmax⟩,
    rfl, rfl, rfl, rfl, rfl⟩
  · rw [toList_getD q h, Nat.add_zero, Nat.mod_eq_of_lt hstart]
  · -- tail of the contents
    apply List.ext_getElem
    · simp [toList_length, popped]
    · intro i h1 h2
      have hi : i < q.size - 1 := by simpa [toList_length, popped] using h1
      rw [List.getElem_tail]
      simp only [toList, popped, List.getElem_map, List.getElem_range]
      rw [Nat.mod_add_mod, show q.start_pos + 1 + i = q.start_pos + (i + 1) by omega]

/-! ## The default-policy invariant and reachable states -/

/-- Invariant of every state reachable from a queue freshly created with
capacity at least 1: well-formedness, the default policy constants, and a
capacity that never drops below the initial one. -/
def DInv (c : Nat) (q : Queue V) : Prop :=
  WF q ∧ q.min_size = QUEUE_DEFAULT_MIN_SIZE ∧
    q.factor_expansion = QUEUE_DEFAULT_FACTOR_EXPANSION ∧
    q.factor_reduction = QUEUE_DEFAULT_FACTOR_REDUCTION ∧
    c ≤ q.max_size

theorem DInv_create (c : Nat) (hc : 1 ≤ c) : DInv c (queue_create V c) := by
  refine ⟨⟨?_, ?_, ?_⟩, rfl, rfl, rfl, le_refl _⟩
  · simp [queue_create]
  · simp [queue_create]
  · simp [queue_create]
    omega

/-- Under the default expansion factor 2.0, a full queue of positive
capacity can always grow. -/
theorem default_growth (q : Queue V) (hfe : q.factor_expansion = QUEUE_DEFAULT_FACTOR_EXPANSION)
    (hmax : 0 < q.max_size) (hfull : q.size = q.max_size) :
    (q.max_size : Int) < cIntOfFloat (cFloatMulNat q.size q.factor_expansion) := by
  rw [hfe, hfull]
  unfold QUEUE_DEFAULT_FACTOR_EXPANSION
  rw [cIntOfFloat_two_mul]
  omega

theorem DInv_push (c : Nat) (q : Queue V) (d : Ptr V) (ok : Bool) (hc : 1 ≤ c)
    (hq : DInv c q) : DInv c (queue_push q d ok).2 := by
  obtain ⟨hwf, hmin, hfe, hfr, hcap⟩ := hq
  have hmax : 0 < q.max_size := by omega
  by_cases hfull : q.size = q.max_size
  · cases ok with
    | false =>
        rw [queue_push_alloc_fail q d hfull]
        exact ⟨hwf, hmin, hfe, hfr, hcap⟩
    | true =>
        obtain ⟨hp1, hplist, hpwf, hpsize, hpmax, hpmin, hpfe, hpfr⟩ :=
          queue_push_toList q d hwf (fun _ => default_growth q hfe hmax hfull)
        exact ⟨hpwf, by rw [hpmin, hmin], by rw [hpfe, hfe], by rw [hpfr, hfr], by omega⟩
  · have hlt : q.size < q.max_size := lt_of_le_of_ne hwf.2.1 hfull
    rw [queue_push_of_lt q d ok hlt]
    obtain ⟨hins, hinswf⟩ := queue_insert_back_toList q d hwf hlt
    exact ⟨hinswf, by simp [queue_insert_back, hmin], by simp [queue_insert_back, hfe],
      by simp [queue_insert_back, hfr], by simpa [queue_insert_back] using hcap⟩

theorem DInv_pop (c : Nat) (q : Queue V) (ok : Bool) (_hc : 1 ≤ c)
    (hq : DInv c q) : DInv c (queue_pop q ok).2 := by
  obtain ⟨hwf, hmin, hfe, hfr, hcap⟩ := hq
  by_cases h : 0 < q.size
  · have hns : ¬ shrinkCond (popped q) := shrinkCond_of_fr_zero _ (by simpa [popped] using hfr)
    obtain ⟨hp1, hplist, hpwf, hpsize, hpmax, hpmin, hpfe, hpfr⟩ :=
      queue_pop_toList q ok hwf h hns
    exact ⟨hpwf, by rw [hpmin, hmin], by rw [hpfe, hfe], by rw [hpfr, hfr], by omega⟩
  · rw [queue_pop_of_zero q ok (by omega)]
    exact ⟨hwf, hmin, hfe, hfr, hcap⟩

theorem Reachable_DInv (c : Nat) (hc : 1 ≤ c) (q : Queue V)
    (hr : Reachable V c q) : DInv c q := by
  induction hr with
  | create => exact DInv_create c hc
  | push q d ok _ ih => exact DInv_push c q d ok hc ih
  | pop q ok _ ih => exact DInv_pop c q ok hc ih

/-! ## Helper lemmas: sequences of pushes and pops -/

theorem toList_create (c : Nat) : toList (queue_create V c) = [] :=
  toList_eq_nil _ rfl

theorem pushAll_cons (q : Queue V) (e : Ptr V) (es : List (Ptr V)) :
    pushAll q (e :: es) = pushAll (queue_push q e true).2 es := rfl

theorem popAll_succ (q : Queue V) (n : Nat) :
    popAll q (n + 1) =
      ((queue_pop q true).1 :: (popAll (queue_pop q true).2 n).1,
        (popAll (queue_pop q true).2 n).2) := rfl

/-- Under the default policy every push of a sequence succeeds and appends
its element. -/
theorem pushAll_toList (c : Nat) (hc : 1 ≤ c) (es : List (Ptr V)) :
    ∀ q : Queue V, DInv c q →
      toList (pushAll q es) = toList q ++ es ∧ DInv c (pushAll q es) := by
  induction es with
  | nil => intro q hq; exact ⟨by simp [pushAll], hq⟩
  | cons e es ih =>
      intro q hq
      obtain ⟨hwf, hmin, hfe, hfr, hcap⟩ := hq
      have hmax : 0 < q.max_size := by
        obtain ⟨-, -, hstart⟩ := hwf
        omega
      obtain ⟨hp1, hplist, hpwf, hpsize, hpmax, hpmin, hpfe, hpfr⟩ :=
        queue_push_toList q e hwf (fun hfull => default_growth q hfe hmax hfull)
      have hq2 : DInv c (queue_push q e true).2 :=
        DInv_push c q e true hc ⟨hwf, hmin, hfe, hfr, hcap⟩
      obtain ⟨ihlist, ihinv⟩ := ih (queue_push q e true).2 hq2
      rw [pushAll_cons]
      exact ⟨by rw [ihlist, hplist, List.append_assoc, List.singleton_append], ihinv⟩

/-- Under the default policy, draining a queue returns exactly its logical
contents in order. -/
theorem popAll_toList (c : Nat) (hc : 1 ≤ c) :
    ∀ (n : Nat) (q : Queue V), DInv c q → q.size = n →
      (popAll q n).1 = toList q := by
  intro n
  induction n with
  | zero => intro q hq hsz; rw [toList_eq_nil q hsz]; rfl
  | succ n ih =>
      intro q hq hsz
      obtain ⟨hwf, hmin, hfe, hfr, hcap⟩ := hq
      have hpos : 0 < q.size := by omega
      have hns : ¬ shrinkCond (popped q) :=
        shrinkCond_of_fr_zero _ (by simpa [popped] using hfr)
      obtain ⟨hp1, hplist, hpwf, hpsize, hpmax, hpmin, hpfe, hpfr⟩ :=
        queue_pop_toList q true hwf hpos hns
      have hq2 : DInv c (queue_pop q true).2 :=
        DInv_pop c q true hc ⟨hwf, hmin, hfe, hfr, hcap⟩
      have hlist : (toList q).length = n + 1 := by rw [toList_length, hsz]
      obtain ⟨x, xs, hxs⟩ : ∃ x xs, toList q = x :: xs := by
        cases hcase : toList q with
        | nil => rw [hcase] at hlist; simp at hlist
        | cons x xs => exact ⟨x, xs, rfl⟩
      rw [popAll_succ]
      have h1 : (queue_pop q true).1 = x := by rw [hp1, hxs]; rfl
      have h2 : (popAll (queue_pop q true).2 n).1 = xs := by
        rw [ih (queue_pop q true).2 hq2 (by omega)]
        rw [hplist, hxs, List.tail_cons]
      rw [h1, h2, hxs]

/-- In static-capacity mode a full push fails and leaves the queue
unchanged (shared between claims C5 and C9). -/
theorem static_push_full (q : Queue V) (d : Ptr V) (ok : Bool)
    (hfull : q.size = q.max_size) (hfe : q.factor_expansion ≤ 1) :
    queue_push q d ok = (false, q) := by
  apply queue_push_of_no_growth q d ok hfull
  have hle : cFloatMulNat q.size q.factor_expansion ≤ (q.size : ℚ) := by
    rw [cFloatMulNat_eq]
    exact mul_le_of_le_one_right (by positivity) hfe
  have := cIntOfFloat_le_natCast hle
  omega

/-- Pushing a sequence into a static-capacity queue: pushes succeed while
there is room and fail afterwards; the size saturates at the capacity. -/
theorem static_pushAll (es : List (Ptr V)) :
    ∀ q : Queue V, q.factor_expansion ≤ 1 → q.size ≤ q.max_size →
      pushAllResults q es
          = List.replicate (min es.length (q.max_size - q.size)) true
              ++ List.replicate (es.length - (q.max_size - q.size)) false ∧
        (pushAll q es).size = min (q.size + es.length) q.max_size := by
  induction es with
  | nil =>
      intro q hfe hsz
      constructor
      · simp [pushAllResults]
      · simp [pushAll]
        omega
  | cons e es ih =>
      intro q hfe hsz
      by_cases hfull : q.size = q.max_size
      · have hp := static_push_full q e true hfull hfe
        obtain ⟨ihres, ihsize⟩ := ih q hfe hsz
        constructor
        · show (queue_push q e true).1 :: pushAllResults (queue_push q e true).2 es = _
          rw [hp]
          simp only
          rw [ihres, hfull, Nat.sub_self]
          simp [List.replicate_succ]
        · rw [pushAll_cons, hp]
          simp only
          rw [ihsize]
          omega
      · have hlt : q.size < q.max_size := lt_of_le_of_ne hsz hfull
        have hp := queue_push_of_lt q e true hlt
        have hfe2 : (queue_insert_back q e).factor_expansion ≤ 1 := by
          simpa [queue_insert_back] using hfe
        have hsz2 : (queue_insert_back q e).size ≤ (queue_insert_back q e).max_size := by
          simp [queue_insert_back]
          omega
        obtain ⟨ihres, ihsize⟩ := ih (queue_insert_back q e) hfe2 hsz2
        constructor
        · show (queue_push q e true).1 :: pushAllResults (queue_push q e true).2 es = _
          rw [hp]
          simp only
          rw [ihres]
          simp only [queue_insert_back, List.length_cons]
          rw [show min (es.length + 1) (q.max_size - q.size)
                = min es.length (q.max_size - (q.size + 1)) + 1 by omega,
              show es.length + 1 - (q.max_size - q.size)
                = es.length - (q.max_size - (q.size + 1)) by omega]
          simp [List.replicate_succ]
        · rw [pushAll_cons, hp]
          simp only
          rw [ihsize]
          simp only [queue_insert_back, List.length_cons]
          omega

/-- A growing push (full queue, effective new capacity) succeeds and sets
the capacity to the computed value, with no well-formedness assumption. -/
theorem queue_push_grow (q : Queue V) (d : Ptr V)
    (hfull : q.size = q.max_size)
    (hnc : (q.max_size : Int) < cIntOfFloat (cFloatMulNat q.size q.factor_expansion)) :
    (queue_push q d true).1 = true ∧
      (queue_push q d true).2.max_size
        = (cIntOfFloat (cFloatMulNat q.size q.factor_expansion)).toNat := by
  constructor <;>
    (unfold queue_push; rw [if_pos hfull, if_neg (not_le.mpr hnc)]; rfl)

theorem pushAll_nil (q : Queue V) : pushAll q [] = q := rfl

theorem pushAllResizes_nil (q : Queue V) : pushAllResizes q [] = 0 := rfl

theorem pushAllResizes_cons (q : Queue V) (e : Ptr V) (es : List (Ptr V)) :
    pushAllResizes q (e :: es)
      = (if (queue_push q e true).2.max_size ≠ q.max_size then 1 else 0) +
          pushAllResizes (queue_push q e true).2 es := rfl

/-! ## The claims -/

/-- C1: starting from a freshly created queue (capacity ≥ 1, default
policy), pushing e1..en — with any growth resizes this triggers, all
allocations succeeding — and then popping n times returns exactly e1..en
in that order; and the internal resize operation preserves the FIFO
contents exactly. -/
theorem C1_fifo_order (V : Type) (c : Nat) (hc : 1 ≤ c) (es : List (Ptr V)) :
    (popAll (pushAll (queue_create V c) es) es.length).1 = es ∧
    ∀ (q : Queue V) (n : Nat), WF q → q.size ≤ n → 0 < n →
      Option.map toList (queue_resize q n true) = some (toList q) := by
  constructor
  · obtain ⟨hlist, hinv⟩ := pushAll_toList c hc es _ (DInv_create c hc)
    rw [toList_create, List.nil_append] at hlist
    have hsz : (pushAll (queue_create V c) es).size = es.length := by
      rw [← toList_length, hlist]
    rw [popAll_toList c hc es.length _ hinv hsz, hlist]
  · intro q n hq hn hn0
    obtain ⟨r, hr, hrl, -⟩ := queue_resize_some q n hq hn hn0
    rw [hr]
    simp [hrl]

/-- Witness for C1: capacity 1, three elements (one of them NULL). -/
theorem C1_fifo_order_witness :
    (popAll (pushAll (queue_create Nat 1) [some 4, none, some 6]) 3).1
        = [some 4, none, some 6] :=
  (C1_fifo_order Nat 1 (by decide) [some 4, none, some 6]).1

/-- C2 counterexample: with the default policy and initial capacity 1, the
second push triggers a resize (the capacity changes from 1 to 2), after
which max_size = 2 is NOT at least min_size = 16 — refuting the claim
that max_size ≥ min_size holds once a resize has occurred under the
default policy. -/
theorem C2_counterexample :
    (queue_push (queue_create Nat 1) (some 0) true).2.max_size = 1 ∧
    (queue_push (queue_push (queue_create Nat 1) (some 0) true).2 (some 1)
        true).2.max_size = 2 ∧
    (queue_push (queue_push (queue_create Nat 1) (some 0) true).2 (some 1)
        true).2.min_size = 16 ∧
    ¬ ((queue_push (queue_push (queue_create Nat 1) (some 0) true).2 (some 1)
          true).2.min_size ≤
        (queue_push (queue_push (queue_create Nat 1) (some 0) true).2 (some 1)
          true).2.max_size) := by
  decide

/-- C2 (amended): in every state reachable from create(capacity) with
capacity ≥ 1 under the default policy, 0 ≤ size ≤ max_size holds; and
min_size ≤ max_size holds in every reachable state — resizes included —
provided the initial capacity is at least min_size = 16 (the capacity
never decreases under the default policy).  Without that proviso the bound
can fail right after a resize (see the counterexample). -/
theorem C2_capacity_invariant (V : Type) (c : Nat) (hc : 1 ≤ c) (q : Queue V)
    (hr : Reachable V c q) :
    0 ≤ q.size ∧ q.size ≤ q.max_size ∧
      (QUEUE_DEFAULT_MIN_SIZE ≤ c → q.min_size ≤ q.max_size) := by
  obtain ⟨hwf, hmin, hfe, hfr, hcap⟩ := Reachable_DInv c hc q hr
  refine ⟨Nat.zero_le _, hwf.2.1, fun h => ?_⟩
  rw [hmin]
  unfold QUEUE_DEFAULT_MIN_SIZE at h ⊢
  omega

/-- Witness for C2 (amended), at a state reached by one push from
create(16). -/
theorem C2_capacity_invariant_witness :
    (queue_push (queue_create Nat 16) (some 3) true).2.size ≤
      (queue_push (queue_create Nat 16) (some 3) true).2.max_size ∧
    (queue_push (queue_create Nat 16) (some 3) true).2.min_size ≤
      (queue_push (queue_create Nat 16) (some 3) true).2.max_size := by
  have h := C2_capacity_invariant Nat 16 (by decide) _
    (Reachable.push _ (some 3) true Reachable.create)
  exact ⟨h.2.1, h.2.2 (by decide)⟩

/-- C3 (initialization half): queue_create(capacity) returns a queue with
start = 0, size = 0, a capacity-slot storage, and the default policy
constants min_size = 16, growth factor 2.0, shrink factor 0.0.  The
failure half of the claim does not hold of the code: queue_create never
checks the results of its two malloc calls, so an allocation failure is
not signalled as OutOfMemory — the code dereferences the null pointer
(undefined behaviour) instead. -/
theorem C3_create_initialization (V : Type) (c : Nat) :
    (queue_create V c).start_pos = 0 ∧
    (queue_create V c).size = 0 ∧
    (queue_create V c).max_size = c ∧
    (queue_create V c).content.length = c ∧
    (queue_create V c).min_size = QUEUE_DEFAULT_MIN_SIZE ∧
    (queue_create V c).factor_expansion = QUEUE_DEFAULT_FACTOR_EXPANSION ∧
    (queue_create V c).factor_reduction = QUEUE_DEFAULT_FACTOR_REDUCTION :=
  ⟨rfl, rfl, rfl, by simp [queue_create], rfl, rfl, rfl⟩

set_option maxHeartbeats 4000000

/-- C4: for a full queue (size = max_size) with growth factor > 1, push
computes new_capacity = floor(size * growth_factor) (the C int cast; the
product is nonnegative, so truncation and floor agree); if new_capacity ≤
max_size the push fails leaving the queue unchanged, otherwise the store
is resized to new_capacity and the element is appended.  Concretely,
create(4) followed by 5 pushes triggers exactly one resize, ends with
capacity 8, and peek(i) returns the i-th pushed element for i in [0,5). -/
theorem C4_growth_policy (V : Type) :
    (∀ (q : Queue V) (d : Ptr V),
      q.size = q.max_size → 1 < q.factor_expansion →
      (cIntOfFloat (cFloatMulNat q.size q.factor_expansion) ≤ (q.max_size : Int) →
        queue_push q d true = (false, q)) ∧
      ((q.max_size : Int) < cIntOfFloat (cFloatMulNat q.size q.factor_expansion) →
        (queue_push q d true).1 = true ∧
        (queue_push q d true).2.max_size
          = (cIntOfFloat (cFloatMulNat q.size q.factor_expansion)).toNat ∧
        (WF q → toList (queue_push q d true).2 = toList q ++ [d]))) ∧
    (∀ e1 e2 e3 e4 e5 : Ptr V,
      pushAllResizes (queue_create V 4) [e1, e2, e3, e4, e5] = 1 ∧
      (pushAll (queue_create V 4) [e1, e2, e3, e4, e5]).max_size = 8 ∧
      queue_get (pushAll (queue_create V 4) [e1, e2, e3, e4, e5]) 0 = e1 ∧
      queue_get (pushAll (queue_create V 4) [e1, e2, e3, e4, e5]) 1 = e2 ∧
      queue_get (pushAll (queue_create V 4) [e1, e2, e3, e4, e5]) 2 = e3 ∧
      queue_get (pushAll (queue_create V 4) [e1, e2, e3, e4, e5]) 3 = e4 ∧
      queue_get (pushAll (queue_create V 4) [e1, e2, e3, e4, e5]) 4 = e5) := by
  constructor
  · intro q d hfull _hgf
    refine ⟨fun hnc => queue_push_of_no_growth q d true hfull hnc, fun hnc => ?_⟩
    obtain ⟨h1, h2⟩ := queue_push_grow q d hfull hnc
    exact ⟨h1, h2, fun hwf => (queue_push_toList q d hwf (fun _ => hnc)).2.1⟩
  · intro e1 e2 e3 e4 e5
    have s1 : queue_push (queue_create V 4) e1 true
        = (true, (⟨0, 1, 4, [e1, none, none, none], 16, 2, 0⟩ : Queue V)) := rfl
    have s2 : queue_push (⟨0, 1, 4, [e1, none, none, none], 16, 2, 0⟩ : Queue V) e2 true
        = (true, (⟨0, 2, 4, [e1, e2, none, none], 16, 2, 0⟩ : Queue V)) := rfl
    have s3 : queue_push (⟨0, 2, 4, [e1, e2, none, none], 16, 2, 0⟩ : Queue V) e3 true
        = (true, (⟨0, 3, 4, [e1, e2, e3, none], 16, 2, 0⟩ : Queue V)) := rfl
    have s4 : queue_push (⟨0, 3, 4, [e1, e2, e3, none], 16, 2, 0⟩ : Queue V) e4 true
        = (true, (⟨0, 4, 4, [e1, e2, e3, e4], 16, 2, 0⟩ : Queue V)) := rfl
    have s5 : queue_push (⟨0, 4, 4, [e1, e2, e3, e4], 16, 2, 0⟩ : Queue V) e5 true
        = (true, (⟨0, 5, 8, [e1, e2, e3, e4, e5, none, none, none], 16, 2, 0⟩ : Queue V)) := by
      unfold queue_push
      norm_num [cIntOfFloat_two_mul, cFloatMulNat_eq]
      rfl
    have hP : pushAll (queue_create V 4) [e1, e2, e3, e4, e5]
        = (⟨0, 5, 8, [e1, e2, e3, e4, e5, none, none, none], 16, 2, 0⟩ : Queue V) := by
      simp only [pushAll_cons, pushAll_nil, s1, s2, s3, s4, s5]
    have hR : pushAllResizes (queue_create V 4) [e1, e2, e3, e4, e5] = 1 := by
      simp only [pushAllResizes_cons, pushAllResizes_nil, s1, s2, s3, s4, s5]
      norm_num [queue_create]
    exact ⟨hR, by rw [hP], by rw [hP]; rfl, by rw [hP]; rfl, by rw [hP]; rfl,
      by rw [hP]; rfl, by rw [hP]; rfl⟩

set_option maxHeartbeats 200000

/-- Witness for C4: the growth branch at the full one-element queue
obtained by one push from create(1), plus the concrete create(4)
scenario. -/
theorem C4_growth_policy_witness :
    (queue_push (pushAll (queue_create Nat 1) [some 9]) (some 8) true).1 = true ∧
    (queue_push (pushAll (queue_create Nat 1) [some 9]) (some 8) true).2.max_size = 2 ∧
    pushAllResizes (queue_create Nat 4) [some 0, some 1, some 2, some 3, some 4] = 1 := by
  have h := ((C4_growth_policy Nat).1 (pushAll (queue_create Nat 1) [some 9]) (some 8)
      (by decide) (by decide)).2 (by decide)
  exact ⟨h.1, by rw [h.2.1]; decide,
    ((C4_growth_policy Nat).2 (some 0) (some 1) (some 2) (some 3) (some 4)).1⟩

/-- C5: in static-capacity mode (growth factor ≤ 1) a push on a full queue
fails returning the queue unchanged; and from create(capacity) with the
growth factor set to 1.0, pushing capacity+1 elements yields capacity
successes followed by one failure, with the size remaining capacity. -/
theorem C5_static_mode (V : Type) :
    (∀ (q : Queue V) (d : Ptr V) (ok : Bool),
      q.size = q.max_size → q.factor_expansion ≤ 1 →
      queue_push q d ok = (false, q)) ∧
    (∀ (c : Nat) (es : List (Ptr V)), es.length = c + 1 →
      pushAllResults { queue_create V c with factor_expansion := 1 } es
          = List.replicate c true ++ [false] ∧
      (pushAll { queue_create V c with factor_expansion := 1 } es).size = c) := by
  constructor
  · exact fun q d ok hfull hfe => static_push_full q d ok hfull hfe
  · intro c es hlen
    obtain ⟨hres, hsize⟩ := static_pushAll es
      { queue_create V c with factor_expansion := 1 } (le_refl 1)
      (by simp [queue_create])
    constructor
    · rw [hres]
      simp only [queue_create]
      rw [hlen, Nat.sub_zero,
        show min (c + 1) c = c by omega, show c + 1 - c = 1 by omega]
      rfl
    · rw [hsize]
      simp only [queue_create]
      rw [hlen]
      omega

/-- Witness for C5: capacity 2, three pushes. -/
theorem C5_static_mode_witness :
    pushAllResults { queue_create Nat 2 with factor_expansion := 1 }
        [some 1, some 2, some 3] = [true, true, false] ∧
    (pushAll { queue_create Nat 2 with factor_expansion := 1 }
        [some 1, some 2, some 3]).size = 2 ∧
    queue_push (pushAll { queue_create Nat 2 with factor_expansion := 1 }
          [some 1, some 2]) (some 3) true
        = (false, pushAll { queue_create Nat 2 with factor_expansion := 1 }
            [some 1, some 2]) := by
  have h := (C5_static_mode Nat).2 2 [some 1, some 2, some 3] (by decide)
  refine ⟨by rw [h.1]; rfl, h.2, ?_⟩
  exact (C5_static_mode Nat).1 _ (some 3) true (by decide) (by decide)

/-- C6 counterexample: a queue with start = 1, size = 3, max_size = 8,
min_size = 2 and shrink factor 1/2: pop removes the oldest element, but
the shrink policy then fires and resets start to 0 (and the capacity to
2), so the final start is NOT (start + 1) mod max_size = 2 as the claim
states for every queue. -/
theorem C6_counterexample :
    (queue_pop (⟨1, 3, 8, [some 0, some 1, some 2, some 3, none, none, none, none],
        2, 2, mkRat 1 2⟩ : Queue Nat) true).1 = some 1 ∧
    (queue_pop (⟨1, 3, 8, [some 0, some 1, some 2, some 3, none, none, none, none],
        2, 2, mkRat 1 2⟩ : Queue Nat) true).2.start_pos = 0 ∧
    (queue_pop (⟨1, 3, 8, [some 0, some 1, some 2, some 3, none, none, none, none],
        2, 2, mkRat 1 2⟩ : Queue Nat) true).2.max_size = 2 ∧
    (1 + 1) % 8 = 2 ∧
    ¬ ((queue_pop (⟨1, 3, 8, [some 0, some 1, some 2, some 3, none, none, none, none],
        2, 2, mkRat 1 2⟩ : Queue Nat) true).2.start_pos = (1 + 1) % 8) := by
  decide

/-- C6 (amended): pop returns Empty on an empty queue, leaving it
unchanged (in particular on a freshly created queue); on a nonempty queue
it removes and returns the element at storage index start, sets
start = (start + 1) mod max_size and decrements size, and THEN, if the
shrink policy triggers (size ≥ min_size and size/max_size < shrink_factor
after the removal) and the reallocation succeeds, shrinks the backing
store to the new size, which resets start to 0. -/
theorem C6_pop_contract (V : Type) (q : Queue V) (ok : Bool) (c : Nat) :
    (q.size = 0 → queue_pop q ok = (none, q)) ∧
    (0 < q.size →
      (queue_pop q ok).1 = q.content.getD q.start_pos none ∧
      (¬ shrinkCond (popped q) → (queue_pop q ok).2 = popped q) ∧
      (shrinkCond (popped q) → ok = true →
        (queue_pop q ok).2.start_pos = 0 ∧
        (queue_pop q ok).2.size = q.size - 1 ∧
        (queue_pop q ok).2.max_size = q.size - 1)) ∧
    queue_pop (queue_create V c) ok = (none, queue_create V c) := by
  refine ⟨fun h => queue_pop_of_zero q ok h, fun h => ?_,
    queue_pop_of_zero _ ok rfl⟩
  refine ⟨?_, fun hns => ?_, fun hs hok => ?_⟩
  · rw [queue_pop_of_pos q ok h]
  · rw [queue_pop_no_shrink q ok h hns]
  · subst hok
    rw [queue_pop_of_pos q true h, if_pos hs]
    exact ⟨rfl, rfl, rfl⟩

/-- Witness for C6 (amended): the no-shrink branch at a one-element queue
under the default policy, and the Empty branch at a fresh queue. -/
theorem C6_pop_contract_witness :
    (queue_pop (pushAll (queue_create Nat 3) [some 7]) true).1 = some 7 ∧
    (queue_pop (pushAll (queue_create Nat 3) [some 7]) true).2
        = popped (pushAll (queue_create Nat 3) [some 7]) ∧
    queue_pop (queue_create Nat 5) true = (none, queue_create Nat 5) := by
  have h := (C6_pop_contract Nat (pushAll (queue_create Nat 3) [some 7]) true 5).2.1
    (by decide)
  exact ⟨by rw [h.1]; rfl, h.2.1 (by decide),
    (C6_pop_contract Nat (pushAll (queue_create Nat 3) [some 7]) true 5).2.2⟩

/-- C7: after the removal step of a successful pop, if the new size is at
least min_size and (new size)/max_size < shrink_factor, the store is
shrunk to exactly the new size (capacity and storage length both become
size); with shrink_factor = 0 no pop ever shrinks — the capacity and the
storage are unchanged. -/
theorem C7_shrink_policy (V : Type) (q : Queue V) (ok : Bool) :
    (0 < q.size → q.min_size ≤ q.size - 1 →
      cFloatDivNat (q.size - 1) q.max_size < q.factor_reduction → ok = true →
      (queue_pop q ok).2.max_size = q.size - 1 ∧
      (queue_pop q ok).2.content.length = q.size - 1) ∧
    (q.factor_reduction = 0 →
      (queue_pop q ok).2.max_size = q.max_size ∧
      (queue_pop q ok).2.content = q.content) := by
  constructor
  · intro h hmin hq hok
    subst hok
    have hs : shrinkCond (popped q) := ⟨hmin, hq⟩
    rw [queue_pop_of_pos q true h, if_pos hs]
    refine ⟨rfl, ?_⟩
    show ((resize_copy (popped q) ++ List.replicate (popped q).size none).take
        (popped q).size).length = q.size - 1
    simp only [List.length_take, List.length_append, List.length_replicate]
    rw [min_eq_left (by omega)]
    simp [popped]
  · intro hfr
    by_cases h : 0 < q.size
    · have hns : ¬ shrinkCond (popped q) :=
        shrinkCond_of_fr_zero _ (by simpa [popped] using hfr)
      rw [queue_pop_no_shrink q ok h hns]
      exact ⟨rfl, rfl⟩
    · rw [queue_pop_of_zero q ok (by omega)]
      exact ⟨rfl, rfl⟩

/-- Witness for C7: a shrinking pop (min_size 2, shrink factor 1/2,
capacity 8, 3 elements) and a default-policy pop. -/
theorem C7_shrink_policy_witness :
    (queue_pop (⟨0, 3, 8, [some 0, some 1, some 2, none, none, none, none, none],
        2, 2, mkRat 1 2⟩ : Queue Nat) true).2.max_size = 2 ∧
    (queue_pop (⟨0, 3, 8, [some 0, some 1, some 2, none, none, none, none, none],
        2, 2, mkRat 1 2⟩ : Queue Nat) true).2.content.length = 2 ∧
    (queue_pop (pushAll (queue_create Nat 4) [some 1, some 2]) true).2.max_size
        = (pushAll (queue_create Nat 4) [some 1, some 2]).max_size := by
  have h := (C7_shrink_policy Nat
    (⟨0, 3, 8, [some 0, some 1, some 2, none, none, none, none, none],
      2, 2, mkRat 1 2⟩ : Queue Nat) true).1 (by decide) (by decide) (by decide) rfl
  exact ⟨h.1, h.2,
    ((C7_shrink_policy Nat (pushAll (queue_create Nat 4) [some 1, some 2]) true).2
      (by decide)).1⟩

/-- C8: peek(q, i) returns the i-th oldest element ((toList q).getD i) for
0 ≤ i < size and NULL (OutOfRange) otherwise — including i = size and
i = -1.  Non-mutation is definitional: in this embedding queue_get
returns only a value and no queue state, mirroring the C code, which
performs no writes. -/
theorem C8_peek_contract (V : Type) (q : Queue V) (i : Int) :
    (0 ≤ i → i < (q.size : Int) → queue_get q i = (toList q).getD i.toNat none) ∧
    (¬ (0 ≤ i ∧ i < (q.size : Int)) → queue_get q i = none) := by
  constructor
  · intro h0 hlt
    unfold queue_get
    rw [if_pos ⟨h0, hlt⟩, toList_getD q (show i.toNat < q.size by omega)]
  · intro hrange
    unfold queue_get
    rw [if_neg hrange]

/-- Witness for C8: in-range peek at offset 1 of a two-element queue, and
the out-of-range boundaries i = size and i = -1. -/
theorem C8_peek_contract_witness :
    queue_get (pushAll (queue_create Nat 4) [some 5, some 6]) 1
        = (toList (pushAll (queue_create Nat 4) [some 5, some 6])).getD 1 none ∧
    queue_get (pushAll (queue_create Nat 4) [some 5, some 6]) 2 = none ∧
    queue_get (pushAll (queue_create Nat 4) [some 5, some 6]) (-1) = none := by
  refine ⟨(C8_peek_contract Nat (pushAll (queue_create Nat 4) [some 5, some 6]) 1).1
      (by decide) (by decide), ?_, ?_⟩
  · exact (C8_peek_contract Nat (pushAll (queue_create Nat 4) [some 5, some 6]) 2).2
      (by decide)
  · exact (C8_peek_contract Nat (pushAll (queue_create Nat 4) [some 5, some 6]) (-1)).2
      (by decide)

/-- C9: failure outcomes never leave a partially updated queue.  A failed
allocation makes queue_resize fail with the queue untouched; a push on a
full queue whose resize allocation fails returns false with the queue
exactly as before, as does a push rejected for lack of effective growth
(AtCapacity) with any allocation outcome; pop on an empty queue returns
Empty with the queue unchanged; and a pop whose shrink reallocation fails
still completes the removal, leaving the queue valid at its previous
capacity. -/
theorem C9_failure_atomicity (V : Type) (q : Queue V) (n : Nat) (d : Ptr V)
    (ok : Bool) :
    queue_resize q n false = none ∧
    (q.size = q.max_size → queue_push q d false = (false, q)) ∧
    (q.size = q.max_size →
      cIntOfFloat (cFloatMulNat q.size q.factor_expansion) ≤ (q.max_size : Int) →
      queue_push q d ok = (false, q)) ∧
    (q.size = 0 → queue_pop q ok = (none, q)) ∧
    (0 < q.size → (queue_pop q false).2 = popped q) := by
  refine ⟨rfl, fun h => queue_push_alloc_fail q d h,
    fun h hnc => queue_push_of_no_growth q d ok h hnc,
    fun h => queue_pop_of_zero q ok h, fun h => ?_⟩
  rw [queue_pop_of_pos q false h]
  by_cases hs : shrinkCond (popped q)
  · rw [if_pos hs]
    rfl
  · rw [if_neg hs]

/-- Witness for C9: a full default-policy queue whose growth allocation
fails, an empty queue popped, and a failed shrink allocation. -/
theorem C9_failure_atomicity_witness :
    queue_push (pushAll (queue_create Nat 1) [some 3]) (some 4) false
        = (false, pushAll (queue_create Nat 1) [some 3]) ∧
    queue_pop (queue_create Nat 2) true = (none, queue_create Nat 2) ∧
    (queue_pop (pushAll (queue_create Nat 1) [some 3]) false).2
        = popped (pushAll (queue_create Nat 1) [some 3]) := by
  have h := C9_failure_atomicity Nat (pushAll (queue_create Nat 1) [some 3]) 5
    (some 4) true
  have h2 := C9_failure_atomicity Nat (queue_create Nat 2) 5 (some 4) true
  exact ⟨h.2.1 (by decide), h2.2.2.2.1 rfl, h.2.2.2.2 (by decide)⟩

/-- C10: push accepts the NULL pointer exactly like any other element (its
success is independent of the pushed value), and popping or peeking the
stored NULL returns NULL — the same value pop returns for Empty and peek
returns for OutOfRange, so the two cases are indistinguishable at the
interface. -/
theorem C10_null_element (V : Type) :
    (∀ (q : Queue V) (d : Ptr V) (ok : Bool),
      (queue_push q (none : Ptr V) ok).1 = (queue_push q d ok).1) ∧
    ((queue_push (queue_create V 1) none true).1 = true ∧
      (queue_pop (queue_push (queue_create V 1) none true).2 true).1 = none ∧
      (queue_pop (queue_create V 1) true).1 = none ∧
      queue_get (queue_push (queue_create V 1) none true).2 0 = none ∧
      queue_get (queue_push (queue_create V 1) none true).2 1 = none) := by
  constructor
  · intro q d ok
    unfold queue_push
    by_cases hfull : q.size = q.max_size
    · rw [if_pos hfull, if_pos hfull]
      by_cases hnc : cIntOfFloat (cFloatMulNat q.size q.factor_expansion)
          ≤ (q.max_size : Int)
      · rw [if_pos hnc, if_pos hnc]
      · rw [if_neg hnc, if_neg hnc]
        cases hres : queue_resize q
            (cIntOfFloat (cFloatMulNat q.size q.factor_expansion)).toNat ok <;>
          simp [hres]
    · rw [if_neg hfull, if_neg hfull]
  · exact ⟨rfl, rfl, rfl, rfl, rfl⟩

end GLES3ComputeLib
